import Mathlib

/-!
Verification development for the Vinnova data-collection repository's PDF
section-extraction algorithm (`src/dataFetchScripts/pdf_to_excel_converter.py`).

Texts are shallowly embedded as `List Char`.  Python's `str.split('\n')`,
`str.strip()`, `' '.join(...)`, `str.replace`, and the specific regular
expressions used by the script (which are alternations of literal phrases,
optionally followed by a parenthesized annotation and whitespace/colon runs)
are translated into executable Lean functions.  Python's `re.IGNORECASE` is
modelled by a character-lowering function covering the ASCII letters plus the
Swedish letters actually occurring in the script's patterns.
-/

/-- Python whitespace characters (the `\s` class for the relevant inputs). -/
def isSpace (c : Char) : Bool :=
  c = ' ' || c = '\t' || c = '\n' || c = '\r' || c = '\x0b' || c = '\x0c'

/-- The punctuation set of `clean_text`'s second substitution `\s+([.,;)])`. -/
def isPunct (c : Char) : Bool :=
  c = '.' || c = ',' || c = ';' || c = ')'

/-- The bullet glyphs recognized by the script. -/
def bulletChars : List Char := ['●', '•', '-', '*']

def isBulletChar (c : Char) : Bool := bulletChars.contains c

/-- Lower-casing for case-insensitive matching, on the alphabet of the
script's patterns (ASCII plus Å, Ä, Ö). -/
def lowerChar (c : Char) : Char :=
  if 'A' ≤ c && c ≤ 'Z' then Char.ofNat (c.toNat + 32)
  else if c = 'Å' then 'å'
  else if c = 'Ä' then 'ä'
  else if c = 'Ö' then 'ö'
  else c

/-- `ciPref p s`: the literal phrase `p` matches case-insensitively at the
start of `s` (so `p` is a case-insensitive prefix of `s`). -/
def ciPref (p s : List Char) : Bool :=
  p.map lowerChar == (s.take p.length).map lowerChar

/-- `occursCI p t`: the phrase `p` matches case-insensitively at some
position of `t`. -/
def occursCI (p : List Char) : List Char → Bool
  | [] => ciPref p []
  | s@(_ :: cs) => ciPref p s || occursCI p cs

/-- Python `str.split(sep)` for a one-character separator. -/
def splitOnChar (sep : Char) : List Char → List (List Char)
  | [] => [[]]
  | c :: cs =>
    if c = sep then [] :: splitOnChar sep cs
    else
      match splitOnChar sep cs with
      | [] => [[c]]
      | l :: ls => (c :: l) :: ls

/-- Python `text.split('\n')`. -/
def splitNl (t : List Char) : List (List Char) := splitOnChar '\n' t

/-- Python `'\n'.join(lines)`. -/
def joinNl : List (List Char) → List Char
  | [] => []
  | [l] => l
  | l :: ls => l ++ '\n' :: joinNl ls

/-- Python `' '.join(words)`. -/
def joinWords : List (List Char) → List Char
  | [] => []
  | [w] => w
  | w :: ws => w ++ ' ' :: joinWords ws

/-- Python `str.strip()`: drop leading and trailing whitespace. -/
def pyStrip (l : List Char) : List Char :=
  ((l.dropWhile isSpace).reverse.dropWhile isSpace).reverse

/-- Helper for `pySplitWS`: `acc` holds the characters of the current word
in reverse order. -/
def splitWSAux : List Char → List Char → List (List Char)
  | acc, [] => if acc.isEmpty then [] else [acc.reverse]
  | acc, c :: cs =>
    if isSpace c then
      if acc.isEmpty then splitWSAux [] cs
      else acc.reverse :: splitWSAux [] cs
    else splitWSAux (c :: acc) cs

/-- Python `str.split()` with no argument: split on whitespace runs,
dropping empty fragments. -/
def pySplitWS (l : List Char) : List (List Char) := splitWSAux [] l

/-- Helper for `collapseWS`: the flag records whether the previous input
character was whitespace (i.e. we are inside a whitespace run whose single
replacement space has already been emitted). -/
def collapseAux : Bool → List Char → List Char
  | _, [] => []
  | inRun, c :: cs =>
    if isSpace c then
      if inRun then collapseAux true cs else ' ' :: collapseAux true cs
    else c :: collapseAux false cs

/-- `re.sub(r'\s+', ' ', line)`: collapse each maximal whitespace run to a
single space. -/
def collapseWS (l : List Char) : List Char := collapseAux false l

/-- Helper for `stripBeforePunct`: `pend` holds the currently pending
maximal whitespace run (in order).  When the run turns out to be followed by
a punctuation character it is dropped, otherwise it is flushed. -/
def sbpAux : List Char → List Char → List Char
  | pend, [] => pend
  | pend, c :: cs =>
    if isSpace c then sbpAux (pend ++ [c]) cs
    else if isPunct c then c :: sbpAux [] cs
    else pend ++ c :: sbpAux [] cs

/-- `re.sub(r'\s+([.,;)])', r'\1', line)`: delete each maximal whitespace run
that is immediately followed by one of the punctuation characters. -/
def stripBeforePunct (l : List Char) : List Char := sbpAux [] l

/-- One line of `clean_text`'s per-line cleaning. -/
def cleanLine (l : List Char) : List Char := stripBeforePunct (collapseWS l)

/-- `clean_text` from the converter: per line, collapse whitespace runs and
strip whitespace before punctuation; keep only lines that are non-blank after
stripping; rejoin with newlines. -/
def clean_text (t : List Char) : List Char :=
  joinNl (((splitNl t).map cleanLine).filter fun l => !(pyStrip l).isEmpty)

/-- `line.strip().startswith(bullet)` for some bullet glyph. -/
def lineIsBullet (l : List Char) : Bool :=
  match pyStrip l with
  | [] => false
  | c :: _ => isBulletChar c

/-- One step of the bullet-removal loop:
`stripped_line.replace(bullet, '').strip()`. -/
def bulletStep (b : Char) (l : List Char) : List Char :=
  pyStrip (l.filter fun c => c != b)

/-- The content the script computes for a bullet line: strip the line, then
for each of the four glyphs in order remove every occurrence and re-strip. -/
def bulletContent (l : List Char) : List Char :=
  bulletStep '*' (bulletStep '-' (bulletStep '•' (bulletStep '●' (pyStrip l))))

/-- The numbering loop of `convert_bullets_to_numbers`, carrying the
1-based counter. -/
def numberLines : Nat → List (List Char) → List (List Char)
  | _, [] => []
  | k, l :: ls =>
    if lineIsBullet l then
      (Nat.toDigits 10 k ++ '.' :: ' ' :: bulletContent l) :: numberLines (k + 1) ls
    else l :: numberLines k ls

/-- `convert_bullets_to_numbers` from the converter. -/
def convert_bullets_to_numbers (t : List Char) : List Char :=
  if t.isEmpty then t
  else if !(splitNl t).any lineIsBullet then t
  else joinNl (numberLines 1 (splitNl t))

/-- The separator characters removed during partner cleanup. -/
def sepChars : List Char := ['|', ',', ';']

/-- The standardization step of `extract_project_partners`: replace every
bullet glyph with the separator `'|'`. -/
def standardize (t : List Char) : List Char :=
  t.map fun c => if isBulletChar c then '|' else c

/-- The per-line splitting step of `extract_project_partners`: split on the
separator if present, else on commas if present, else the whole stripped
line; empty lines contribute nothing. -/
def linePartners (l : List Char) : List (List Char) :=
  let s := pyStrip l
  if s.isEmpty then []
  else if s.contains '|' then ((splitOnChar '|' s).map pyStrip).filter fun p => !p.isEmpty
  else if s.contains ',' then ((splitOnChar ',' s).map pyStrip).filter fun p => !p.isEmpty
  else [s]

/-- The cleanup step of `extract_project_partners`: delete residual
separators, re-normalize whitespace via `' '.join(partner.split())`, and
drop the partner if the result is empty. -/
def cleanupPartner (p : List Char) : Option (List Char) :=
  let q := p.filter fun c => !sepChars.contains c
  let r := joinWords (pySplitWS q)
  if r.isEmpty then none else some r

/-- `extract_project_partners` from the converter. -/
def extract_project_partners (t : List Char) : List (List Char) :=
  if t.isEmpty then []
  else ((splitNl (standardize t)).flatMap linePartners).filterMap cleanupPartner

/-- No two adjacent whitespace characters. -/
def noTwoSpaces : List Char → Bool
  | [] => true
  | [_] => true
  | c1 :: c2 :: rest => !(isSpace c1 && isSpace c2) && noTwoSpaces (c2 :: rest)

/-- Characters that may not survive into a cleaned partner name: the
separators removed by cleanup and the bullet glyphs normalized away. -/
def badPartnerChar (c : Char) : Bool := sepChars.contains c || isBulletChar c

/-- Every whitespace character is a plain space. -/
def spacesBlank (l : List Char) : Bool := l.all fun c => !isSpace c || c == ' '

/-- No whitespace character directly precedes a whitespace or punctuation
character: the normal form established by `cleanLine`. -/
def goodPairs : List Char → Bool
  | [] => true
  | [_] => true
  | c1 :: c2 :: rest => !(isSpace c1 && (isSpace c2 || isPunct c2)) && goodPairs (c2 :: rest)

/-- `re.search` for an alternation of literal phrases: scan positions left to
right, returning the first offset at which some phrase matches
case-insensitively (`i` is the offset of the scanned suffix). -/
def searchFirstAux (phrases : List (List Char)) : List Char → Nat → Option Nat
  | [], i => if phrases.any (fun p => ciPref p []) then some i else none
  | s@(_ :: cs), i =>
    if phrases.any (fun p => ciPref p s) then some i
    else searchFirstAux phrases cs (i + 1)

def searchFirst (phrases : List (List Char)) (t : List Char) : Option Nat :=
  searchFirstAux phrases t 0

/-- Modelled from the spec: §4.1's "find the **last** occurrence in the
record text of any of its bilingual header phrases" — the greatest offset at
which some phrase matches case-insensitively.  Defined only to compare the
spec's stated rule with the source's behavior. -/
def searchLastAux (phrases : List (List Char)) : List Char → Nat → Option Nat
  | [], i => if phrases.any (fun p => ciPref p []) then some i else none
  | s@(_ :: cs), i =>
    match searchLastAux phrases cs (i + 1) with
    | some j => some j
    | none => if phrases.any (fun p => ciPref p s) then some i else none

def searchLast (phrases : List (List Char)) (t : List Char) : Option Nat :=
  searchLastAux phrases t 0

def insatsKey : List Char := "Insatsområde som projektet adresserar".data
def titelKey : List Char := "Projektets titel".data
def malKey : List Char := "Mål för projektet".data
def sammKey : List Char := "Sammanfattning".data
def koordKey : List Char := "Koordinerande projektpart".data
def ovrigaKey : List Char := "Övriga projektparter".data
def budgetKey : List Char := "Totalt budgeterad kostnad för projektet".data
def soktKey : List Char := "Totalt sökt bidrag".data

def insatsPhrases : List (List Char) :=
  ["Insatsområde som projektet adresserar".data, "Focus area of the project".data]
def titelPhrases : List (List Char) :=
  ["Projektets titel".data, "Project title".data]
def malPhrases : List (List Char) :=
  ["Mål för projektet".data, "Mål för samverkansprojektet".data,
   "Objective for the project".data, "Collaboration project objectives".data]
def sammPhrases : List (List Char) :=
  ["Sammanfattning".data, "Summary".data]
def koordPhrases : List (List Char) :=
  ["Koordinerande projektpart".data, "Coordinator organization".data]
def ovrigaPhrases : List (List Char) :=
  ["Övriga projektparter".data, "Other project parties".data]

/-- The per-field search patterns of `extract_project_data`, in the
iteration order of the `data` dict (budget keys excluded, as in the code). -/
def sectionPatterns : List (List Char × List (List Char)) :=
  [(insatsKey, insatsPhrases), (titelKey, titelPhrases), (malKey, malPhrases),
   (sammKey, sammPhrases), (koordKey, koordPhrases), (ovrigaKey, ovrigaPhrases)]

/-- The phrases of the general end pattern `(?:Totalt budgeterad|Total budgeted)`. -/
def budgetEndPhrases : List (List Char) :=
  ["Totalt budgeterad".data, "Total budgeted".data]

/-- The fixed end-pattern table: each section is terminated by the next
section's header pattern in canonical schema order. -/
def endTable : List (List Char × List (List Char)) :=
  [(insatsKey, titelPhrases), (titelKey, malPhrases), (malKey, sammPhrases),
   (sammKey, koordPhrases), (koordKey, ovrigaPhrases), (ovrigaKey, budgetEndPhrases)]

def budLabels : List (List Char) :=
  ["Totalt budgeterad kostnad för projektet".data, "Total budgeted cost".data]
def soktLabels : List (List Char) :=
  ["Totalt sökt bidrag".data, "Total requested contribution".data]

/-- All canonical header phrases of the eight schema fields, in both
languages. -/
def canonicalPhrases : List (List Char) :=
  insatsPhrases ++ titelPhrases ++ malPhrases ++ sammPhrases ++ koordPhrases ++
    ovrigaPhrases ++ budLabels ++ soktLabels

/-- Whether any canonical header phrase occurs (case-insensitively)
anywhere in the text. -/
def hasAnyHeader (t : List Char) : Bool :=
  canonicalPhrases.any fun p => occursCI p t

/-- Python string comparison (strict, by code point). -/
def lexLt : List Char → List Char → Bool
  | [], [] => false
  | [], _ :: _ => true
  | _ :: _, [] => false
  | a :: as, b :: bs =>
    if a.toNat < b.toNat then true
    else if a.toNat = b.toNat then lexLt as bs
    else false

/-- Python tuple comparison `(int, str) <= (int, str)`, as used by
`section_positions.sort()`. -/
def pairLe (x y : Nat × List Char) : Bool :=
  x.1 < y.1 || (x.1 == y.1 && (lexLt x.2 y.2 || x.2 == y.2))

def insertPair (x : Nat × List Char) : List (Nat × List Char) → List (Nat × List Char)
  | [] => [x]
  | y :: ys => if pairLe x y then x :: y :: ys else y :: insertPair x ys

/-- Sorting of the `(offset, section-name)` pairs (Python `list.sort()`;
since all keys are pairwise comparable, insertion sort produces the same
sorted permutation). -/
def sortPairs : List (Nat × List Char) → List (Nat × List Char)
  | [] => []
  | x :: xs => insertPair x (sortPairs xs)

/-- The collected `(match.start(), section)` pairs of the fields whose
pattern `re.search` finds, in dict iteration order, before sorting. -/
def rawPositions (t : List Char) : List (Nat × List Char) :=
  sectionPatterns.filterMap fun pr => (searchFirst pr.2 t).map fun i => (i, pr.1)

/-- The header locator: for each field, `re.search` its pattern and collect
the `(match.start(), section)` pairs of the fields that were found, then
sort. -/
def section_positions (t : List Char) : List (Nat × List Char) :=
  sortPairs (rawPositions t)

def wsRunLen (u : List Char) : Nat := (u.takeWhile isSpace).length

def wsColonRun (u : List Char) : Nat :=
  (u.takeWhile fun c => isSpace c || c = ':').length

/-- Index of the first `')'` reachable by the lazy `.*?` (which cannot cross
a newline, as `re.DOTALL` is not set). -/
def firstParenClose : List Char → Option Nat
  | [] => none
  | c :: cs =>
    if c = ')' then some 0
    else if c = '\n' then none
    else (firstParenClose cs).map (· + 1)

/-- Length consumed by `(?:\s*\(.*?\))?[\s:]*` after a matched label: the
greedy optional takes the parenthetical when `'('` follows the whitespace
run and a `')'` is reachable, else it is skipped; then a greedy `[\s:]*`. -/
def startExtra (u : List Char) : Nat :=
  let w := wsRunLen u
  match u.drop w with
  | '(' :: v =>
    match firstParenClose v with
    | some j => (w + 1 + j + 1) + wsColonRun (u.drop (w + 1 + j + 1))
    | none => wsColonRun u
  | _ => wsColonRun u

/-- Match length at the start of a suffix for a start pattern
`(?:L1|...|Lk)(?:\s*\(.*?\))?[\s:]*` (alternatives tried in order). -/
def startLen (phrases : List (List Char)) (s : List Char) : Option Nat :=
  phrases.findSome? fun p =>
    if ciPref p s then some (p.length + startExtra (s.drop p.length)) else none

/-- Match length at the start of a suffix for a plain alternation of
literal phrases `(?:L1|...|Lk)`. -/
def labelLen (phrases : List (List Char)) (s : List Char) : Option Nat :=
  phrases.findSome? fun p => if ciPref p s then some p.length else none

/-- `re.finditer`: non-overlapping matches scanned left to right, as
`(start, end)` offset pairs.  `ml` gives the match length of the pattern at
the head of a suffix. -/
def finditerGo (ml : List Char → Option Nat) : List Char → Nat → List (Nat × Nat)
  | [], _ => []
  | c :: cs, i =>
    match ml (c :: cs) with
    | some n =>
      if h : n = 0 then finditerGo ml cs (i + 1)
      else (i, i + n) :: finditerGo ml ((c :: cs).drop n) (i + n)
    | none => finditerGo ml cs (i + 1)
termination_by s => s.length
decreasing_by
  all_goals simp only [List.length_drop, List.length_cons]
  all_goals omega

def finditer (ml : List Char → Option Nat) (t : List Char) : List (Nat × Nat) :=
  finditerGo ml t 0

/-- The loop of `extract_section`: the first end match starting strictly
after `sp` determines the slice `text[sp:end.start()].strip()`. -/
def esFind (text : List Char) (sp : Nat) : List (Nat × Nat) → List Char
  | [] => []
  | e :: es => if sp < e.1 then pyStrip ((text.take e.1).drop sp) else esFind text sp es

/-- `extract_section` on already-computed match lists: boundary resolution
from the last start match and the first qualifying end match. -/
def esMatches (text : List Char) (sms ems : List (Nat × Nat)) : List Char :=
  match sms.getLast? with
  | none => []
  | some sm => esFind text sm.2 ems

/-- `extract_section` from the converter, for patterns given by their
match-length functions. -/
def extract_section (text : List Char) (sml eml : List Char → Option Nat) : List Char :=
  esMatches text (finditer sml text) (finditer eml text)

def isNumClassChar (c : Char) : Bool :=
  ('0' ≤ c && c ≤ '9') || isSpace c || c = ',' || c = '.'

def unitPhrases : List (List Char) := ["MSEK".data, "SEK".data]

/-- The tail of a budget regex after the colon:
`\s*([0-9\s,\.]+(?:\s*(?:MSEK|SEK))?)`.  Whitespace is inside the bracket
class, so the greedy `\s*` backs off exactly one character when the class
run is pure whitespace; the captured group is returned (`none` when no
class character follows at all). -/
def budgetAfterColon (s : List Char) : Option (List Char) :=
  let m := (s.takeWhile isNumClassChar).length
  let w := (s.takeWhile isSpace).length
  if m = 0 then none
  else
    let gs := if w < m then w else w - 1
    let unit :=
      match labelLen unitPhrases (s.drop m) with
      | some n => (s.drop m).take n
      | none => []
    some (((s.take m).drop gs) ++ unit)

/-- The remainders that the lazy `.*?` of `(?:\s*\(.*?\))?` offers in
backtracking order: everything after each `')'` occurring before a newline. -/
def parenRem : List Char → List (List Char)
  | [] => []
  | c :: cs =>
    if c = ')' then cs :: parenRem cs
    else if c = '\n' then []
    else parenRem cs

def budgetColon (s : List Char) : Option (List Char) :=
  match s with
  | ':' :: s3 => budgetAfterColon s3
  | _ => none

/-- After the label: the greedy optional parenthetical (candidates in
backtracking order, falling back to skipping it), then `:` and the group. -/
def budgetAfterLabel (s1 : List Char) : Option (List Char) :=
  let w := wsRunLen s1
  let cands :=
    match s1.drop w with
    | '(' :: v => (parenRem v) ++ [s1]
    | _ => [s1]
  cands.findSome? budgetColon

/-- One `re.search` attempt of a budget pattern at the head of a suffix,
returning the captured group on success. -/
def budgetAttempt (labels : List (List Char)) (s : List Char) : Option (List Char) :=
  labels.findSome? fun p =>
    if ciPref p s then budgetAfterLabel (s.drop p.length) else none

/-- `re.search` of a budget pattern: first position whose attempt succeeds. -/
def budgetGo (labels : List (List Char)) : List Char → Option (List Char)
  | [] => budgetAttempt labels []
  | s@(_ :: cs) =>
    match budgetAttempt labels s with
    | some g => some g
    | none => budgetGo labels cs

/-- One budget field: `match.group(1).strip()` when the pattern matches,
empty string otherwise. -/
def extractBudget (labels : List (List Char)) (t : List Char) : List Char :=
  match budgetGo labels t with
  | some g => pyStrip g
  | none => []

/-- The eight base fields of the `data` dict of `extract_project_data`. -/
structure ProjectData where
  insatsomrade : List Char
  titel : List Char
  mal : List Char
  sammanfattning : List Char
  koordinerande : List Char
  ovriga : List Char
  budgeterad : List Char
  sokt : List Char
deriving DecidableEq

def emptyData : ProjectData := ⟨[], [], [], [], [], [], [], []⟩

def startPhrasesOf (sec : List Char) : List (List Char) :=
  (sectionPatterns.lookup sec).getD []

def endPhrasesOf (sec : List Char) : List (List Char) :=
  (endTable.lookup sec).getD []

/-- The per-section content cleaning of `extract_project_data`: per line
`re.sub(r'\s+', ' ', line).strip()`, keeping non-empty lines. -/
def sectionClean (content : List Char) : List Char :=
  joinNl (((splitNl content).map fun l => pyStrip (collapseWS l)).filter fun l => !l.isEmpty)

def setField (d : ProjectData) (sec v : List Char) : ProjectData :=
  if sec = insatsKey then { d with insatsomrade := v }
  else if sec = titelKey then { d with titel := v }
  else if sec = malKey then { d with mal := v }
  else if sec = sammKey then { d with sammanfattning := v }
  else if sec = koordKey then { d with koordinerande := v }
  else if sec = ovrigaKey then { d with ovriga := v }
  else d

/-- One iteration of the extraction loop over the enumerated sorted
positions (`n` is the number of positions; the last section uses the
budget end pattern). -/
def processSection (text : List Char) (n : Nat) (d : ProjectData)
    (ie : Nat × (Nat × List Char)) : ProjectData :=
  let sec := ie.2.2
  let ePhr := if ie.1 + 1 = n then budgetEndPhrases else endPhrasesOf sec
  let content := extract_section text (startLen (startPhrasesOf sec)) (labelLen ePhr)
  if (pyStrip content).isEmpty then d
  else
    let cleaned := sectionClean content
    let v := if sec = malKey ∨ sec = sammKey then convert_bullets_to_numbers cleaned
             else cleaned
    setField d sec v

/-- `extract_project_data` from the converter. -/
def extract_project_data (text : List Char) : ProjectData :=
  let ps := section_positions text
  let d1 := ps.enum.foldl (processSection text ps.length) emptyData
  { d1 with budgeterad := extractBudget budLabels text,
            sokt := extractBudget soktLabels text }

/-- Python's case-sensitive substring containment `p in s`. -/
def containsSub (p : List Char) : List Char → Bool
  | [] => p.isEmpty
  | s@(_ :: cs) => p.isPrefixOf s || containsSub p cs

def markerPhrases : List (List Char) :=
  ["Projektsammanfattning".data, "Project summary".data]

def containsMarker (t : List Char) : Bool :=
  markerPhrases.any fun m => containsSub m t

/-- The values of the eight base fields, in dict insertion order. -/
def baseValues (d : ProjectData) : List (List Char) :=
  [d.insatsomrade, d.titel, d.mal, d.sammanfattning, d.koordinerande,
   d.ovriga, d.budgeterad, d.sokt]

/-- The per-page decision of `convert_pdf_to_excel`: pages without the
(case-sensitive) summary marker are skipped; the extracted record is kept
only if some value is non-empty after stripping. -/
def pageRecord (text : List Char) : Option (ProjectData × List (List Char)) :=
  if containsMarker text then
    let d := extract_project_data text
    let ps := extract_project_partners d.ovriga
    if (baseValues d ++ ps).any (fun v => !(pyStrip v).isEmpty) then some (d, ps)
    else none
  else none

/-- The batch of records produced from a list of page texts. -/
def batchRecords (pages : List (List Char)) : List (ProjectData × List (List Char)) :=
  pages.filterMap pageRecord

def baseKeys : List (List Char) :=
  [insatsKey, titelKey, malKey, sammKey, koordKey, ovrigaKey, budgetKey, soktKey]

def ppStem : List Char := "Projektpart".data

/-- The dynamic column name `f"Projektpart {i}"`. -/
def projektpartName (i : Nat) : List Char := ppStem ++ ' ' :: Nat.toDigits 10 i

/-- The record dict as an ordered association list: the eight base keys in
insertion order, then the `Projektpart i` keys appended by the partner
loop. -/
def mkRecord (d : ProjectData) (partners : List (List Char)) : List (List Char × List Char) :=
  (baseKeys.zip (baseValues d)) ++ (partners.enum.map fun ip => (projektpartName (ip.1 + 1), ip.2))

/-- Append a column name if not already present (both the DataFrame key
union and the `if col_name not in df.columns` step have this form). -/
def addKey (a : List (List Char)) (k : List Char) : List (List Char) :=
  if a.contains k then a else a ++ [k]

/-- `pd.DataFrame(list-of-dicts)` column construction: union of keys in
first-seen order. -/
def addCols (acc : List (List Char)) (r : List (List Char × List Char)) : List (List Char) :=
  r.foldl (fun a kv => addKey a kv.1) acc

def dfColumns (recs : List (List (List Char × List Char))) : List (List Char) :=
  recs.foldl addCols []

/-- `int(col.split()[-1])` on a well-formed `Projektpart i` column name. -/
def parseNatChars (l : List Char) : Nat :=
  l.foldl (fun n c => n * 10 + (c.toNat - '0'.toNat)) 0

def colIdx (c : List Char) : Nat := parseNatChars ((pySplitWS c).getLastD [])

/-- `col.startswith("Projektpart")`. -/
def isPartnerCol (c : List Char) : Bool := ppStem.isPrefixOf c

/-- The column post-processing of `convert_pdf_to_excel` on a column set:
compute `max_partners`, append any missing `Projektpart i` column, then
reorder to base columns (first-seen order) followed by
`Projektpart 1..max` in numeric order. -/
def finishCols (cols : List (List Char)) : List (List Char) :=
  let maxP := ((cols.filter isPartnerCol).map colIdx).foldl max 0
  let withAdded := (List.range maxP).foldl
    (fun cs k => addKey cs (projektpartName (k + 1))) cols
  (withAdded.filter fun c => !isPartnerCol c) ++ (List.range maxP).map fun k => projektpartName (k + 1)

def dfFinalColumns (recs : List (List (List Char × List Char))) : List (List Char) :=
  finishCols (dfColumns recs)

/-- Modelled from the spec: a serialized cell is the record's stored value,
or the empty string when the record lacks the column — §6's "the
collaborator pads missing partner-index fields with empty string" (the
DataFrame/Excel serialization itself is outside the repository). -/
def cellValue (r : List (List Char × List Char)) (c : List Char) : List Char :=
  (r.lookup c).getD []

/-- The serialized batch: one row per record, over the uniform final
column set. -/
def serializeBatch (recs : List (List (List Char × List Char))) : List (List (List Char)) :=
  recs.map fun r => (dfFinalColumns recs).map (cellValue r)

theorem esFind_eq_find? (text : List Char) (sp : Nat) (ems : List (Nat × Nat)) :
    esFind text sp ems =
      match ems.find? (fun e => decide (sp < e.1)) with
      | some e => pyStrip ((text.take e.1).drop sp)
      | none => [] := by
  induction ems with
  | nil => rfl
  | cons e es ih =>
    by_cases h : sp < e.1
    · simp [esFind, h, List.find?_cons]
    · simp [esFind, h, List.find?_cons, ih]

/-- Claim C2: for every text and patterns (given by their match lists from
`re.finditer`), `extract_section` returns the trimmed slice of the text
between the end of the last start match and the start of the first end
match whose offset is strictly greater than that boundary, and the empty
string when there is no start match or no qualifying end match.  The
function is total, so no exception can escape (the source's `try/except`
returning `""` is subsumed). -/
theorem extract_section_c2 (text : List Char) (sml eml : List Char → Option Nat) :
    extract_section text sml eml =
      match (finditer sml text).getLast? with
      | none => []
      | some sm =>
        match (finditer eml text).find? (fun e => decide (sm.2 < e.1)) with
        | some e => pyStrip ((text.take e.1).drop sm.2)
        | none => [] := by
  unfold extract_section esMatches
  cases (finditer sml text).getLast? with
  | none => rfl
  | some sm => exact esFind_eq_find? text sm.2 (finditer eml text)

/-- Claim C3, counterexample: on the input
`"● Alpha AB\n● Beta AB, Gamma AB"` the partner decomposer does NOT return
`["Alpha AB", "Beta AB", "Gamma AB"]` (the comma split is never applied to
a fragment that came from a bullet split). -/
theorem partners_example_c3_counterexample :
    extract_project_partners "● Alpha AB\n● Beta AB, Gamma AB".data
      ≠ ["Alpha AB".data, "Beta AB".data, "Gamma AB".data] := by decide

/-- Claim C3, amended: the input `"● Alpha AB\n● Beta AB, Gamma AB"`
yields `["Alpha AB", "Beta AB Gamma AB"]`: the second line is split on the
bullet separator only (comma splitting applies only to lines without a
separator), and the residual comma is deleted by the cleanup step, merging
the two names with a single space. -/
theorem partners_example_c3 :
    extract_project_partners "● Alpha AB\n● Beta AB, Gamma AB".data
      = ["Alpha AB".data, "Beta AB Gamma AB".data] := by decide

/-- Claim C4: for a batch of two records, the first with 3 partners and the
second with 1 (arbitrary field and partner values), the serialized batch
has one identical column set for both records — the base columns in
insertion order followed by `Projektpart 1..3` in numeric order — and the
second record's `Projektpart 2` and `Projektpart 3` cells are the empty
string. -/
theorem addCols_keys (acc : List (List Char)) (r : List (List Char × List Char)) :
    addCols acc r = (r.map Prod.fst).foldl addKey acc :=
  (List.foldl_map _ _ _ _).symm

theorem dfColumns_pair (r1 r2 : List (List Char × List Char)) :
    dfColumns [r1, r2] = ((r2.map Prod.fst).foldl addKey ((r1.map Prod.fst).foldl addKey [])) := by
  simp [dfColumns, addCols_keys]

theorem batch_uniform_c4
    (f1 f2 f3 f4 f5 f6 f7 f8 g1 g2 g3 g4 g5 g6 g7 g8 p1 p2 p3 q1 : List Char) :
    dfFinalColumns [mkRecord ⟨f1, f2, f3, f4, f5, f6, f7, f8⟩ [p1, p2, p3],
                    mkRecord ⟨g1, g2, g3, g4, g5, g6, g7, g8⟩ [q1]]
      = baseKeys ++ [projektpartName 1, projektpartName 2, projektpartName 3] ∧
    serializeBatch [mkRecord ⟨f1, f2, f3, f4, f5, f6, f7, f8⟩ [p1, p2, p3],
                    mkRecord ⟨g1, g2, g3, g4, g5, g6, g7, g8⟩ [q1]]
      = [[f1, f2, f3, f4, f5, f6, f7, f8, p1, p2, p3],
         [g1, g2, g3, g4, g5, g6, g7, g8, q1, [], []]] := by
  have hk1 : (mkRecord ⟨f1, f2, f3, f4, f5, f6, f7, f8⟩ [p1, p2, p3]).map Prod.fst
      = baseKeys ++ [projektpartName 1, projektpartName 2, projektpartName 3] := rfl
  have hk2 : (mkRecord ⟨g1, g2, g3, g4, g5, g6, g7, g8⟩ [q1]).map Prod.fst
      = baseKeys ++ [projektpartName 1] := rfl
  have hcols : dfFinalColumns [mkRecord ⟨f1, f2, f3, f4, f5, f6, f7, f8⟩ [p1, p2, p3],
                               mkRecord ⟨g1, g2, g3, g4, g5, g6, g7, g8⟩ [q1]]
      = baseKeys ++ [projektpartName 1, projektpartName 2, projektpartName 3] := by
    unfold dfFinalColumns
    rw [dfColumns_pair, hk1, hk2]
    decide
  have hr1 : mkRecord ⟨f1, f2, f3, f4, f5, f6, f7, f8⟩ [p1, p2, p3]
      = (baseKeys.zip [f1, f2, f3, f4, f5, f6, f7, f8]) ++
        [(projektpartName 1, p1), (projektpartName 2, p2), (projektpartName 3, p3)] := rfl
  have hr2 : mkRecord ⟨g1, g2, g3, g4, g5, g6, g7, g8⟩ [q1]
      = (baseKeys.zip [g1, g2, g3, g4, g5, g6, g7, g8]) ++ [(projektpartName 1, q1)] := rfl
  refine ⟨hcols, ?_⟩
  show [(dfFinalColumns _).map _, (dfFinalColumns _).map _] = _
  rw [hcols, hr1, hr2]
  rfl

theorem numberLines_of_no_bullets (k : Nat) (ls : List (List Char))
    (h : ∀ x ∈ ls, lineIsBullet x = false) : numberLines k ls = ls := by
  induction ls generalizing k with
  | nil => rfl
  | cons l ls ih =>
    have hl := h l (List.mem_cons_self _ _)
    simp [numberLines, hl, ih _ fun x hx => h x (List.mem_cons_of_mem _ hx)]

theorem numberLines_append (k : Nat) (pre rest : List (List Char))
    (h : ∀ x ∈ pre, lineIsBullet x = false) :
    numberLines k (pre ++ rest) = pre ++ numberLines k rest := by
  induction pre generalizing k with
  | nil => rfl
  | cons l ls ih =>
    have hl := h l (List.mem_cons_self _ _)
    simp [numberLines, hl, ih _ fun x hx => h x (List.mem_cons_of_mem _ hx)]

/-- Claim C5: the bullet-to-ordinal converter is the identity on every text
none of whose lines starts (after stripping) with a bullet glyph; and on a
text whose line decomposition has exactly one bullet-prefixed line, it
replaces that line by `"1. "` followed by the line's content (the stripped
line with all bullet glyphs removed, as the code computes it) and keeps
every other line verbatim, in order. -/
theorem bullets_c5 :
    (∀ t : List Char, (splitNl t).any lineIsBullet = false →
        convert_bullets_to_numbers t = t) ∧
    (∀ (t : List Char) (pre : List (List Char)) (l : List Char) (post : List (List Char)),
        splitNl t = pre ++ l :: post →
        (∀ x ∈ pre, lineIsBullet x = false) →
        (∀ x ∈ post, lineIsBullet x = false) →
        lineIsBullet l = true →
        convert_bullets_to_numbers t
          = joinNl (pre ++ ('1' :: '.' :: ' ' :: bulletContent l) :: post)) := by
  constructor
  · intro t h
    unfold convert_bullets_to_numbers
    by_cases he : t.isEmpty <;> simp [he, h]
  · intro t pre l post hsplit hpre hpost hl
    have hne : t.isEmpty = false := by
      cases t with
      | cons c cs => rfl
      | nil =>
        exfalso
        have h1 : pre ++ l :: post = [[]] := hsplit.symm
        cases pre with
        | cons a as => simp at h1
        | nil =>
          simp at h1
          rw [h1.1] at hl
          exact absurd hl (by decide)
    have hany : (splitNl t).any lineIsBullet = true := by
      rw [hsplit]
      simp [hl]
    unfold convert_bullets_to_numbers
    rw [hne, hany]
    simp only [Bool.not_true, Bool.false_eq_true, if_false]
    rw [hsplit, numberLines_append 1 pre (l :: post) hpre]
    have hone : numberLines 1 (l :: post) = ('1' :: '.' :: ' ' :: bulletContent l) :: post := by
      simp [numberLines, hl, numberLines_of_no_bullets 2 post hpost]
      rfl
    rw [hone]

/-- Witness for C5: a concrete bullet-free text and a concrete text with
exactly one bullet line. -/
theorem bullets_c5_witness :
    convert_bullets_to_numbers "a\nb".data = "a\nb".data ∧
    convert_bullets_to_numbers "x\n● y\nz".data
      = joinNl (["x".data] ++ ('1' :: '.' :: ' ' :: bulletContent "● y".data) :: ["z".data]) :=
  ⟨bullets_c5.1 _ (by decide),
   bullets_c5.2 _ ["x".data] "● y".data ["z".data] (by decide) (by decide) (by decide)
     (by decide)⟩

theorem mem_pyStrip {l : List Char} {c : Char} (h : c ∈ pyStrip l) : c ∈ l := by
  unfold pyStrip at h
  rw [List.mem_reverse] at h
  have h2 := (List.dropWhile_sublist isSpace).subset h
  rw [List.mem_reverse] at h2
  exact (List.dropWhile_sublist isSpace).subset h2

theorem splitOnChar_ne_nil (sep : Char) (t : List Char) : splitOnChar sep t ≠ [] := by
  cases t with
  | nil => simp [splitOnChar]
  | cons c cs =>
    unfold splitOnChar
    by_cases h : c = sep
    · simp [h]
    · simp only [h, if_false]
      cases hs : splitOnChar sep cs <;> simp

theorem mem_splitOnChar {sep : Char} {t l : List Char} (hl : l ∈ splitOnChar sep t)
    {c : Char} (hc : c ∈ l) : c ∈ t := by
  induction t generalizing l with
  | nil =>
    simp [splitOnChar] at hl
    subst hl
    simp at hc
  | cons x xs ih =>
    unfold splitOnChar at hl
    by_cases h : x = sep
    · rw [if_pos h] at hl
      rcases List.mem_cons.mp hl with h1 | h1
      · subst h1
        simp at hc
      · exact List.mem_cons_of_mem _ (ih h1 hc)
    · rw [if_neg h] at hl
      rcases hsp : splitOnChar sep xs with _ | ⟨hd, tl⟩
      · exact absurd hsp (splitOnChar_ne_nil sep xs)
      · rw [hsp] at hl
        rcases List.mem_cons.mp hl with h1 | h1
        · subst h1
          rcases List.mem_cons.mp hc with h2 | h2
          · subst h2
            exact List.mem_cons_self _ _
          · have hhd : hd ∈ splitOnChar sep xs := by
              rw [hsp]
              exact List.mem_cons_self _ _
            exact List.mem_cons_of_mem _ (ih hhd h2)
        · have hmem : l ∈ splitOnChar sep xs := by
            rw [hsp]
            exact List.mem_cons_of_mem _ h1
          exact List.mem_cons_of_mem _ (ih hmem hc)

theorem linePartners_subset {l pr : List Char} (h : pr ∈ linePartners l) :
    ∀ c ∈ pr, c ∈ l := by
  intro c hc
  simp only [linePartners] at h
  split at h
  · simp at h
  · split at h
    · rw [List.mem_filter] at h
      obtain ⟨piece, hpiece, hps⟩ := List.mem_map.mp h.1
      subst hps
      exact mem_pyStrip (mem_splitOnChar hpiece (mem_pyStrip hc))
    · split at h
      · rw [List.mem_filter] at h
        obtain ⟨piece, hpiece, hps⟩ := List.mem_map.mp h.1
        subst hps
        exact mem_pyStrip (mem_splitOnChar hpiece (mem_pyStrip hc))
      · simp at h
        subst h
        exact mem_pyStrip hc

theorem standardize_no_bullets {t : List Char} {c : Char} (h : c ∈ standardize t) :
    isBulletChar c = false := by
  unfold standardize at h
  obtain ⟨x, _, hfx⟩ := List.mem_map.mp h
  by_cases hb : isBulletChar x
  · simp only [hb, if_true] at hfx
    subst hfx
    decide
  · simp only [hb, if_false] at hfx
    subst hfx
    exact Bool.eq_false_iff.mpr hb

theorem splitWSAux_words (l : List Char) :
    ∀ acc : List Char, (∀ c ∈ acc, isSpace c = false) →
      ∀ w ∈ splitWSAux acc l, w ≠ [] ∧ ∀ c ∈ w, (c ∈ acc ∨ c ∈ l) ∧ isSpace c = false := by
  induction l with
  | nil =>
    intro acc hacc w hw
    unfold splitWSAux at hw
    by_cases he : acc.isEmpty
    · simp [he] at hw
    · rw [if_neg he] at hw
      simp only [List.mem_singleton] at hw
      subst hw
      refine ⟨by simpa using (List.isEmpty_eq_false.mp (Bool.eq_false_iff.mpr he)), ?_⟩
      intro c hc
      rw [List.mem_reverse] at hc
      exact ⟨Or.inl hc, hacc c hc⟩
  | cons x xs ih =>
    intro acc hacc w hw
    unfold splitWSAux at hw
    by_cases hs : isSpace x
    · rw [if_pos hs] at hw
      by_cases he : acc.isEmpty
      · rw [if_pos he] at hw
        obtain ⟨hne, hin⟩ := ih [] (by simp) w hw
        refine ⟨hne, fun c hc => ?_⟩
        obtain ⟨hmem, hns⟩ := hin c hc
        rcases hmem with h1 | h1
        · simp at h1
        · exact ⟨Or.inr (List.mem_cons_of_mem _ h1), hns⟩
      · rw [if_neg he] at hw
        rcases List.mem_cons.mp hw with h1 | h1
        · subst h1
          refine ⟨by simpa using (List.isEmpty_eq_false.mp (Bool.eq_false_iff.mpr he)), ?_⟩
          intro c hc
          rw [List.mem_reverse] at hc
          exact ⟨Or.inl hc, hacc c hc⟩
        · obtain ⟨hne, hin⟩ := ih [] (by simp) w h1
          refine ⟨hne, fun c hc => ?_⟩
          obtain ⟨hmem, hns⟩ := hin c hc
          rcases hmem with h1 | h1
          · simp at h1
          · exact ⟨Or.inr (List.mem_cons_of_mem _ h1), hns⟩
    · rw [if_neg hs] at hw
      have hacc2 : ∀ c ∈ x :: acc, isSpace c = false := by
        intro c hc
        rcases List.mem_cons.mp hc with rfl | h1
        · exact Bool.eq_false_iff.mpr hs
        · exact hacc c h1
      obtain ⟨hne, hin⟩ := ih (x :: acc) hacc2 w hw
      refine ⟨hne, fun c hc => ?_⟩
      obtain ⟨hmem, hns⟩ := hin c hc
      rcases hmem with h1 | h1
      · rcases List.mem_cons.mp h1 with rfl | h2
        · exact ⟨Or.inr (List.mem_cons_self _ _), hns⟩
        · exact ⟨Or.inl h2, hns⟩
      · exact ⟨Or.inr (List.mem_cons_of_mem _ h1), hns⟩

theorem pySplitWS_words {q w : List Char} (hw : w ∈ pySplitWS q) :
    w ≠ [] ∧ ∀ c ∈ w, c ∈ q ∧ isSpace c = false := by
  obtain ⟨hne, hin⟩ := splitWSAux_words q [] (by simp) w hw
  refine ⟨hne, fun c hc => ?_⟩
  obtain ⟨hmem, hns⟩ := hin c hc
  rcases hmem with h1 | h1
  · simp at h1
  · exact ⟨h1, hns⟩

theorem mem_joinWords {ws : List (List Char)} {c : Char} (h : c ∈ joinWords ws) :
    c = ' ' ∨ ∃ w ∈ ws, c ∈ w := by
  induction ws with
  | nil => simp [joinWords] at h
  | cons w ws ih =>
    cases ws with
    | nil => exact Or.inr ⟨w, List.mem_cons_self _ _, by simpa [joinWords] using h⟩
    | cons w2 ws2 =>
      simp only [joinWords] at h
      rcases List.mem_append.mp h with h1 | h1
      · exact Or.inr ⟨w, List.mem_cons_self _ _, h1⟩
      · rcases List.mem_cons.mp h1 with rfl | h2
        · exact Or.inl rfl
        · rcases ih h2 with h3 | ⟨w', hw', hc⟩
          · exact Or.inl h3
          · exact Or.inr ⟨w', List.mem_cons_of_mem _ hw', hc⟩

theorem noTwoSpaces_cons {c : Char} {l : List Char} (hc : isSpace c = false)
    (hl : noTwoSpaces l = true) : noTwoSpaces (c :: l) = true := by
  cases l with
  | nil => rfl
  | cons c2 rest => simp [noTwoSpaces, hc, hl]

theorem noTwoSpaces_of_all {l : List Char} (h : ∀ c ∈ l, isSpace c = false) :
    noTwoSpaces l = true := by
  induction l with
  | nil => rfl
  | cons c cs ih =>
    exact noTwoSpaces_cons (h c (List.mem_cons_self _ _))
      (ih fun c hc => h c (List.mem_cons_of_mem _ hc))

theorem noTwoSpaces_append {a b : List Char} (ha : ∀ c ∈ a, isSpace c = false)
    (hb : noTwoSpaces b = true) : noTwoSpaces (a ++ b) = true := by
  induction a with
  | nil => simpa
  | cons x xs ih =>
    exact noTwoSpaces_cons (ha x (List.mem_cons_self _ _))
      (ih fun c hc => ha c (List.mem_cons_of_mem _ hc))

theorem joinWords_ne_nil {w : List Char} (ws : List (List Char)) (hw : w ≠ []) :
    joinWords (w :: ws) ≠ [] := by
  cases ws with
  | nil => simpa [joinWords]
  | cons w2 ws2 =>
    simp only [joinWords]
    simp [hw]

theorem joinWords_props (ws : List (List Char))
    (h : ∀ w ∈ ws, w ≠ [] ∧ ∀ c ∈ w, isSpace c = false) :
    (∀ c ∈ (joinWords ws).head?, isSpace c = false) ∧
    (∀ c ∈ (joinWords ws).getLast?, isSpace c = false) ∧
    noTwoSpaces (joinWords ws) = true := by
  induction ws with
  | nil => simp [joinWords, noTwoSpaces]
  | cons w ws ih =>
    obtain ⟨hwne, hwns⟩ := h w (List.mem_cons_self _ _)
    cases ws with
    | nil =>
      have hjw : joinWords [w] = w := rfl
      rw [hjw]
      refine ⟨?_, ?_, noTwoSpaces_of_all hwns⟩
      · intro c hc
        cases w with
        | nil => exact absurd rfl hwne
        | cons a as =>
          simp only [List.head?_cons, Option.mem_def, Option.some.injEq] at hc
          subst hc
          exact hwns _ (List.mem_cons_self _ _)
      · intro c hc
        rw [List.getLast?_eq_getLast w hwne, Option.mem_def, Option.some.injEq] at hc
        subst hc
        exact hwns _ (List.getLast_mem hwne)
    | cons w2 ws2 =>
      obtain ⟨hh, hl, hnt⟩ := ih fun x hx => h x (List.mem_cons_of_mem _ hx)
      have hw2ne := (h w2 (List.mem_cons_of_mem _ (List.mem_cons_self _ _))).1
      have hJne : joinWords (w2 :: ws2) ≠ [] := joinWords_ne_nil ws2 hw2ne
      have hjw : joinWords (w :: w2 :: ws2) = w ++ ' ' :: joinWords (w2 :: ws2) := rfl
      rw [hjw]
      refine ⟨?_, ?_, ?_⟩
      · rw [List.head?_append_of_ne_nil _ hwne]
        intro c hc
        cases w with
        | nil => exact absurd rfl hwne
        | cons a as =>
          simp only [List.head?_cons, Option.mem_def, Option.some.injEq] at hc
          subst hc
          exact hwns _ (List.mem_cons_self _ _)
      · rw [List.getLast?_append_of_ne_nil _ (List.cons_ne_nil _ _)]
        have : (' ' :: joinWords (w2 :: ws2)).getLast? = (joinWords (w2 :: ws2)).getLast? := by
          rw [show (' ' :: joinWords (w2 :: ws2)) = [' '] ++ joinWords (w2 :: ws2) from rfl,
            List.getLast?_append_of_ne_nil _ hJne]
        rw [this]
        exact hl
      · refine noTwoSpaces_append hwns ?_
        cases hJ : joinWords (w2 :: ws2) with
        | nil => exact absurd hJ hJne
        | cons a as =>
          have ha : isSpace a = false := by
            have := hh a
            rw [hJ] at this
            exact this (by simp)
          rw [hJ] at hnt
          simp [noTwoSpaces, ha, hnt]

/-- Claim C10: every partner produced by `extract_project_partners` is
non-empty, contains none of the separator characters or bullet glyphs, has
no leading or trailing whitespace, and has no two adjacent whitespace
characters. -/
theorem partners_invariant_c10 (t p : List Char) (hp : p ∈ extract_project_partners t) :
    p ≠ [] ∧ (∀ c ∈ p, badPartnerChar c = false) ∧
    (∀ c ∈ p.head?, isSpace c = false) ∧ (∀ c ∈ p.getLast?, isSpace c = false) ∧
    noTwoSpaces p = true := by
  unfold extract_project_partners at hp
  by_cases ht : t.isEmpty
  · simp [ht] at hp
  · rw [if_neg ht] at hp
    obtain ⟨pr, hpr, hclean⟩ := List.mem_filterMap.mp hp
    simp only [cleanupPartner] at hclean
    split at hclean
    · exact absurd hclean (by simp)
    · rename_i hr
      have hpeq : joinWords (pySplitWS (pr.filter fun c => !sepChars.contains c)) = p :=
        Option.some.inj hclean
      obtain ⟨line, hline, hprl⟩ := List.mem_flatMap.mp hpr
      have hwords : ∀ w ∈ pySplitWS (pr.filter fun c => !sepChars.contains c),
          w ≠ [] ∧ ∀ c ∈ w, isSpace c = false :=
        fun w hw => ⟨(pySplitWS_words hw).1, fun c hc => (pySplitWS_words hw).2 c hc |>.2⟩
      refine ⟨?_, ?_, ?_, ?_, ?_⟩
      · intro hnil
        rw [hpeq, hnil] at hr
        exact hr rfl
      · intro c hc
        rw [← hpeq] at hc
        rcases mem_joinWords hc with rfl | ⟨w, hw, hcw⟩
        · decide
        · have hq := (pySplitWS_words hw).2 c hcw |>.1
          rw [List.mem_filter] at hq
          have hsep : sepChars.contains c = false := by
            have := hq.2
            simpa using this
          have hbul : isBulletChar c = false :=
            standardize_no_bullets (mem_splitOnChar hline (linePartners_subset hprl c hq.1))
          have hsep2 : c ∉ sepChars := by simpa using hsep
          simp [badPartnerChar, hbul, hsep2]
      · rw [← hpeq]
        exact (joinWords_props _ hwords).1
      · rw [← hpeq]
        exact (joinWords_props _ hwords).2.1
      · rw [← hpeq]
        exact (joinWords_props _ hwords).2.2

/-- Witness for C10: the concrete input `"● A  B\n"` yields the single
partner `"A B"`, which satisfies the invariant. -/
theorem partners_invariant_c10_witness :
    "A B".data ≠ [] ∧ (∀ c ∈ "A B".data, badPartnerChar c = false) ∧
    (∀ c ∈ "A B".data.head?, isSpace c = false) ∧
    (∀ c ∈ "A B".data.getLast?, isSpace c = false) ∧
    noTwoSpaces "A B".data = true :=
  partners_invariant_c10 "● A  B\n".data "A B".data (by decide)

theorem goodPairs_cons {c : Char} {l : List Char} (hc : isSpace c = false)
    (hl : goodPairs l = true) : goodPairs (c :: l) = true := by
  cases l with
  | nil => rfl
  | cons c2 rest => simp [goodPairs, hc, hl]

theorem goodPairs_tail {c : Char} {l : List Char} (h : goodPairs (c :: l) = true) :
    goodPairs l = true := by
  cases l with
  | nil => rfl
  | cons c2 rest =>
    simp only [goodPairs, Bool.and_eq_true] at h
    exact h.2

theorem goodPairs_noTwo {l : List Char} (h : goodPairs l = true) : noTwoSpaces l = true := by
  induction l with
  | nil => rfl
  | cons c cs ih =>
    cases cs with
    | nil => rfl
    | cons c2 rest =>
      simp only [goodPairs, Bool.and_eq_true, Bool.not_eq_true',
        Bool.and_eq_false_iff] at h
      simp only [noTwoSpaces, Bool.and_eq_true, Bool.not_eq_true', Bool.and_eq_false_iff]
      refine ⟨?_, ih h.2⟩
      rcases h.1 with h1 | h1
      · exact Or.inl h1
      · rcases Bool.or_eq_false_iff.mp h1 with ⟨h2, _⟩
        exact Or.inr h2

theorem collapseAux_true_head (l : List Char) :
    ∀ c ∈ (collapseAux true l).head?, isSpace c = false := by
  induction l with
  | nil => simp [collapseAux]
  | cons x xs ih =>
    by_cases hs : isSpace x
    · simpa [collapseAux, hs] using ih
    · intro c hc
      simp only [collapseAux, hs] at hc
      simp only [Bool.false_eq_true, if_false, List.head?_cons, Option.mem_def,
        Option.some.injEq] at hc
      subst hc
      exact Bool.eq_false_iff.mpr hs

theorem collapseAux_spacesBlank (l : List Char) : ∀ b, spacesBlank (collapseAux b l) = true := by
  induction l with
  | nil => intro b; rfl
  | cons x xs ih =>
    intro b
    by_cases hs : isSpace x
    · cases b with
      | true => simpa [collapseAux, hs] using ih true
      | false =>
        simp only [collapseAux, hs, if_true]
        simpa [spacesBlank] using ih true
    · simp only [collapseAux, hs, if_false]
      simpa [spacesBlank, hs] using ih false

theorem collapseAux_noTwo (l : List Char) : ∀ b, noTwoSpaces (collapseAux b l) = true := by
  induction l with
  | nil => intro b; rfl
  | cons x xs ih =>
    intro b
    by_cases hs : isSpace x
    · cases b with
      | true => simpa [collapseAux, hs] using ih true
      | false =>
        simp only [collapseAux, hs, if_true]
        cases hJ : collapseAux true xs with
        | nil => rfl
        | cons a as =>
          have ha : isSpace a = false := by
            have hh := collapseAux_true_head xs a
            rw [hJ] at hh
            exact hh (by simp)
          have hrest := ih true
          rw [hJ] at hrest
          simp [noTwoSpaces, ha, hrest]
    · simp only [collapseAux, hs, if_false]
      exact noTwoSpaces_cons (Bool.eq_false_iff.mpr hs) (ih false)

theorem spacesBlank_cons {c : Char} {l : List Char} :
    spacesBlank (c :: l) = ((!isSpace c || c == ' ') && spacesBlank l) := by
  simp [spacesBlank]

theorem spacesBlank_space_eq {c : Char} {l : List Char} (h : spacesBlank (c :: l) = true)
    (hs : isSpace c = true) : c = ' ' := by
  rw [spacesBlank_cons, Bool.and_eq_true, Bool.or_eq_true] at h
  rcases h.1 with h1 | h1
  · rw [hs] at h1
    exact absurd h1 (by decide)
  · exact eq_of_beq h1

theorem noTwoSpaces_pair {c c2 : Char} {l : List Char}
    (h : noTwoSpaces (c :: c2 :: l) = true) (hs : isSpace c = true) : isSpace c2 = false := by
  simp only [noTwoSpaces, Bool.and_eq_true, Bool.not_eq_true', Bool.and_eq_false_iff] at h
  rcases h.1 with h1 | h1
  · rw [hs] at h1
    exact absurd h1 (by decide)
  · exact h1

theorem noTwoSpaces_tail {c : Char} {l : List Char} (h : noTwoSpaces (c :: l) = true) :
    noTwoSpaces l = true := by
  cases l with
  | nil => rfl
  | cons c2 rest =>
    simp only [noTwoSpaces, Bool.and_eq_true] at h
    exact h.2

theorem goodPairs_pair {c c2 : Char} {l : List Char}
    (h : goodPairs (c :: c2 :: l) = true) (hs : isSpace c = true) :
    isSpace c2 = false ∧ isPunct c2 = false := by
  simp only [goodPairs, Bool.and_eq_true, Bool.not_eq_true', Bool.and_eq_false_iff] at h
  rcases h.1 with h1 | h1
  · rw [hs] at h1
    exact absurd h1 (by decide)
  · exact Bool.or_eq_false_iff.mp h1

theorem sbpAux_nf (l : List Char) :
    ∀ pend, spacesBlank l = true → noTwoSpaces l = true →
      (pend = [] ∨ (pend = [' '] ∧ ∀ c ∈ l.head?, isSpace c = false)) →
      spacesBlank (sbpAux pend l) = true ∧ goodPairs (sbpAux pend l) = true := by
  induction l with
  | nil =>
    intro pend _ _ hpend
    rcases hpend with rfl | ⟨rfl, _⟩
    · exact ⟨rfl, rfl⟩
    · exact ⟨by decide, rfl⟩
  | cons x xs ih =>
    intro pend hsb hnt hpend
    have hsbxs : spacesBlank xs = true := by
      rw [spacesBlank_cons, Bool.and_eq_true] at hsb
      exact hsb.2
    by_cases hs : isSpace x
    · have hx : x = ' ' := spacesBlank_space_eq hsb hs
      have hpe : pend = [] := by
        rcases hpend with rfl | ⟨rfl, hh⟩
        · rfl
        · exact absurd (hh x (by simp)) (by simp [hs])
      subst hpe
      simp only [sbpAux, hs, if_true, List.nil_append]
      have hhead : ∀ c ∈ xs.head?, isSpace c = false := by
        cases xs with
        | nil => simp
        | cons c2 rest =>
          intro c hc
          simp only [List.head?_cons, Option.mem_def, Option.some.injEq] at hc
          subst hc
          exact noTwoSpaces_pair hnt hs
      have := ih [x] hsbxs (noTwoSpaces_tail hnt) (Or.inr ⟨by rw [hx], hhead⟩)
      exact this
    · by_cases hp : isPunct x
      · obtain ⟨h1, h2⟩ := ih [] hsbxs (noTwoSpaces_tail hnt) (Or.inl rfl)
        have hout : sbpAux pend (x :: xs) = x :: sbpAux [] xs := by
          simp [sbpAux, hs, hp]
        rw [hout]
        refine ⟨?_, goodPairs_cons (Bool.eq_false_iff.mpr hs) h2⟩
        rw [spacesBlank_cons, Bool.and_eq_true]
        exact ⟨by simp [hs], h1⟩
      · obtain ⟨h1, h2⟩ := ih [] hsbxs (noTwoSpaces_tail hnt) (Or.inl rfl)
        have hout : sbpAux pend (x :: xs) = pend ++ x :: sbpAux [] xs := by
          simp [sbpAux, hs, hp]
        rw [hout]
        have hx1 : spacesBlank (x :: sbpAux [] xs) = true := by
          rw [spacesBlank_cons, Bool.and_eq_true]
          exact ⟨by simp [hs], h1⟩
        have hx2 : goodPairs (x :: sbpAux [] xs) = true :=
          goodPairs_cons (Bool.eq_false_iff.mpr hs) h2
        rcases hpend with rfl | ⟨rfl, _⟩
        · simpa using ⟨hx1, hx2⟩
        · constructor
          · show spacesBlank (' ' :: x :: sbpAux [] xs) = true
            rw [spacesBlank_cons, Bool.and_eq_true]
            exact ⟨by decide, hx1⟩
          · show goodPairs (' ' :: x :: sbpAux [] xs) = true
            simp only [goodPairs, Bool.and_eq_true]
            refine ⟨?_, hx2⟩
            simp [hs, hp]

theorem collapseAux_id (l : List Char) :
    ∀ b, spacesBlank l = true → noTwoSpaces l = true →
      (b = true → ∀ c ∈ l.head?, isSpace c = false) →
      collapseAux b l = l := by
  induction l with
  | nil => intro b _ _ _; rfl
  | cons x xs ih =>
    intro b hsb hnt hb
    have hsbxs : spacesBlank xs = true := by
      rw [spacesBlank_cons, Bool.and_eq_true] at hsb
      exact hsb.2
    by_cases hs : isSpace x
    · have hx : x = ' ' := spacesBlank_space_eq hsb hs
      have hbf : b = false := by
        cases b with
        | false => rfl
        | true => exact absurd (hb rfl x (by simp)) (by simp [hs])
      subst hbf
      have hhead : true = true → ∀ c ∈ xs.head?, isSpace c = false := by
        intro _
        cases xs with
        | nil => simp
        | cons c2 rest =>
          intro c hc
          simp only [List.head?_cons, Option.mem_def, Option.some.injEq] at hc
          subst hc
          exact noTwoSpaces_pair hnt hs
      have hout : collapseAux false (x :: xs) = ' ' :: collapseAux true xs := by
        simp [collapseAux, hs]
      rw [hout, ih true hsbxs (noTwoSpaces_tail hnt) hhead, hx]
    · have hout : collapseAux b (x :: xs) = x :: collapseAux false xs := by
        simp [collapseAux, hs]
      rw [hout, ih false hsbxs (noTwoSpaces_tail hnt) (fun h => nomatch h)]

theorem sbpAux_id (l : List Char) :
    ∀ pend, spacesBlank l = true → goodPairs l = true →
      (pend = [] ∨ (pend = [' '] ∧ ∀ c ∈ l.head?, isSpace c = false ∧ isPunct c = false)) →
      sbpAux pend l = pend ++ l := by
  induction l with
  | nil =>
    intro pend _ _ _
    simp [sbpAux]
  | cons x xs ih =>
    intro pend hsb hgp hpend
    have hsbxs : spacesBlank xs = true := by
      rw [spacesBlank_cons, Bool.and_eq_true] at hsb
      exact hsb.2
    by_cases hs : isSpace x
    · have hx : x = ' ' := spacesBlank_space_eq hsb hs
      have hpe : pend = [] := by
        rcases hpend with rfl | ⟨rfl, hh⟩
        · rfl
        · exact absurd (hh x (by simp)).1 (by simp [hs])
      subst hpe
      have hhead : ∀ c ∈ xs.head?, isSpace c = false ∧ isPunct c = false := by
        cases xs with
        | nil => simp
        | cons c2 rest =>
          intro c hc
          simp only [List.head?_cons, Option.mem_def, Option.some.injEq] at hc
          subst hc
          exact goodPairs_pair hgp hs
      have hout : sbpAux [] (x :: xs) = sbpAux [x] xs := by
        simp [sbpAux, hs]
      rw [hout, hx, ih [' '] hsbxs (goodPairs_tail hgp) (Or.inr ⟨rfl, hhead⟩)]
      rfl
    · by_cases hp : isPunct x
      · have hout : sbpAux pend (x :: xs) = x :: sbpAux [] xs := by
          simp [sbpAux, hs, hp]
        have hpe : pend = [] := by
          rcases hpend with rfl | ⟨rfl, hh⟩
          · rfl
          · exact absurd (hh x (by simp)).2 (by simp [hp])
        subst hpe
        rw [hout, ih [] hsbxs (goodPairs_tail hgp) (Or.inl rfl)]
        rfl
      · have hout : sbpAux pend (x :: xs) = pend ++ x :: sbpAux [] xs := by
          simp [sbpAux, hs, hp]
        rw [hout, ih [] hsbxs (goodPairs_tail hgp) (Or.inl rfl)]
        rfl

theorem cleanLine_nf (l : List Char) :
    spacesBlank (cleanLine l) = true ∧ goodPairs (cleanLine l) = true :=
  sbpAux_nf (collapseWS l) [] (collapseAux_spacesBlank l false) (collapseAux_noTwo l false)
    (Or.inl rfl)

theorem cleanLine_id {l : List Char} (hsb : spacesBlank l = true) (hgp : goodPairs l = true) :
    cleanLine l = l := by
  show sbpAux [] (collapseAux false l) = l
  rw [collapseAux_id l false hsb (goodPairs_noTwo hgp) (fun h => nomatch h)]
  simpa using sbpAux_id l [] hsb hgp (Or.inl rfl)

theorem splitOnChar_no_sep {sep : Char} : ∀ {l : List Char}, sep ∉ l →
    splitOnChar sep l = [l] := by
  intro l
  induction l with
  | nil => intro _; rfl
  | cons c cs ih =>
    intro h
    have hc : ¬c = sep := fun he => h (he ▸ List.mem_cons_self _ _)
    have hcs : sep ∉ cs := fun hm => h (List.mem_cons_of_mem _ hm)
    unfold splitOnChar
    rw [if_neg hc, ih hcs]

theorem splitOnChar_cons_sep (sep : Char) (cs : List Char) :
    splitOnChar sep (sep :: cs) = [] :: splitOnChar sep cs := by
  simp [splitOnChar]

theorem splitOnChar_cons_ne (sep c : Char) (cs : List Char) (hc : ¬c = sep) :
    splitOnChar sep (c :: cs) =
      match splitOnChar sep cs with
      | [] => [[c]]
      | l :: ls => (c :: l) :: ls := by
  simp [splitOnChar, hc]

theorem splitOnChar_append_sep {sep : Char} {r : List Char} : ∀ {l : List Char}, sep ∉ l →
    splitOnChar sep (l ++ sep :: r) = l :: splitOnChar sep r := by
  intro l
  induction l with
  | nil =>
    intro _
    exact splitOnChar_cons_sep sep r
  | cons c cs ih =>
    intro h
    have hc : ¬c = sep := fun he => h (he ▸ List.mem_cons_self _ _)
    have hcs : sep ∉ cs := fun hm => h (List.mem_cons_of_mem _ hm)
    show splitOnChar sep (c :: (cs ++ sep :: r)) = (c :: cs) :: splitOnChar sep r
    rw [splitOnChar_cons_ne sep c _ hc, ih hcs]

theorem splitNl_joinNl : ∀ {L : List (List Char)}, L ≠ [] → (∀ l ∈ L, '\n' ∉ l) →
    splitNl (joinNl L) = L := by
  intro L
  induction L with
  | nil => intro h _; exact absurd rfl h
  | cons l L ih =>
    intro _ h
    cases L with
    | nil => exact splitOnChar_no_sep (h l (List.mem_cons_self _ _))
    | cons l2 L2 =>
      show splitOnChar '\n' (l ++ '\n' :: joinNl (l2 :: L2)) = l :: (l2 :: L2)
      rw [splitOnChar_append_sep (h l (List.mem_cons_self _ _))]
      have := ih (List.cons_ne_nil _ _) (fun m hm => h m (List.mem_cons_of_mem _ hm))
      rw [show splitNl (joinNl (l2 :: L2)) = splitOnChar '\n' (joinNl (l2 :: L2)) from rfl] at this
      rw [this]

theorem spacesBlank_no_newline {l : List Char} (h : spacesBlank l = true) : '\n' ∉ l := by
  intro hmem
  have h2 := List.all_eq_true.mp h _ hmem
  exact absurd h2 (by decide)

/-- Claim C8: the text normalizer `clean_text` is idempotent — applying it
to its own output returns that output unchanged. -/
theorem clean_text_idempotent_c8 (t : List Char) :
    clean_text (clean_text t) = clean_text t := by
  unfold clean_text
  set L := ((splitNl t).map cleanLine).filter (fun l => !(pyStrip l).isEmpty) with hL
  have hmem : ∀ m ∈ L, spacesBlank m = true ∧ goodPairs m = true ∧
      (!(pyStrip m).isEmpty) = true := by
    intro m hm
    rw [hL, List.mem_filter] at hm
    obtain ⟨hm1, hm2⟩ := hm
    obtain ⟨x, _, hmx⟩ := List.mem_map.mp hm1
    subst hmx
    exact ⟨(cleanLine_nf x).1, (cleanLine_nf x).2, hm2⟩
  by_cases hLe : L = []
  · rw [hLe]
    decide
  · have h1 : splitNl (joinNl L) = L :=
      splitNl_joinNl hLe (fun m hm => spacesBlank_no_newline (hmem m hm).1)
    rw [h1]
    have h2 : L.map cleanLine = L :=
      calc L.map cleanLine
          = L.map id := List.map_congr_left
            (fun m hm => cleanLine_id (hmem m hm).1 (hmem m hm).2.1)
        _ = L := List.map_id L
    rw [h2, List.filter_eq_self.mpr (fun m hm => (hmem m hm).2.2)]

theorem searchFirstAux_eq_some (phrases : List (List Char)) :
    ∀ (s : List Char) (i j : Nat), searchFirstAux phrases s i = some j ↔
      (i ≤ j ∧ (phrases.any fun p => ciPref p (s.drop (j - i))) = true ∧
       ∀ k, i ≤ k → k < j → (phrases.any fun p => ciPref p (s.drop (k - i))) = false) := by
  intro s
  induction s with
  | nil =>
    intro i j
    unfold searchFirstAux
    by_cases ha : (phrases.any fun p => ciPref p ([] : List Char)) = true
    · rw [if_pos ha]
      constructor
      · intro h
        have hj := Option.some.inj h
        subst hj
        exact ⟨le_refl _, by simpa using ha, fun k h1 h2 => by omega⟩
      · intro ⟨h1, _, h3⟩
        by_cases hij : i = j
        · rw [hij]
        · have := h3 i (le_refl i) (lt_of_le_of_ne h1 hij)
          rw [List.drop_nil] at this
          rw [this] at ha
          exact absurd ha (by decide)
    · rw [if_neg ha]
      constructor
      · intro h
        exact absurd h (by simp)
      · intro ⟨_, h2, _⟩
        rw [List.drop_nil] at h2
        exact absurd h2 ha
  | cons c cs ih =>
    intro i j
    unfold searchFirstAux
    by_cases ha : (phrases.any fun p => ciPref p (c :: cs)) = true
    · rw [if_pos ha]
      constructor
      · intro h
        have hj := Option.some.inj h
        subst hj
        exact ⟨le_refl _, by simpa using ha, fun k h1 h2 => by omega⟩
      · intro ⟨h1, _, h3⟩
        by_cases hij : i = j
        · rw [hij]
        · have := h3 i (le_refl i) (lt_of_le_of_ne h1 hij)
          rw [Nat.sub_self, List.drop_zero] at this
          rw [this] at ha
          exact absurd ha (by decide)
    · rw [if_neg ha]
      rw [ih (i + 1) j]
      constructor
      · intro ⟨h1, h2, h3⟩
        refine ⟨by omega, ?_, ?_⟩
        · have hd : (c :: cs).drop (j - i) = cs.drop (j - (i + 1)) := by
            have he : j - i = (j - (i + 1)) + 1 := by omega
            rw [he, List.drop_succ_cons]
          rw [hd]
          exact h2
        · intro k hk1 hk2
          by_cases hki : k = i
          · subst hki
            rw [Nat.sub_self, List.drop_zero]
            exact Bool.eq_false_iff.mpr ha
          · have hd : (c :: cs).drop (k - i) = cs.drop (k - (i + 1)) := by
              have he : k - i = (k - (i + 1)) + 1 := by omega
              rw [he, List.drop_succ_cons]
            rw [hd]
            exact h3 k (by omega) hk2
      · intro ⟨h1, h2, h3⟩
        have hij : i < j := by
          rcases Nat.lt_or_ge i j with hlt | hge
          · exact hlt
          · have he : j = i := by omega
            subst he
            rw [Nat.sub_self, List.drop_zero] at h2
            exact absurd h2 ha
        refine ⟨by omega, ?_, ?_⟩
        · have hd : cs.drop (j - (i + 1)) = (c :: cs).drop (j - i) := by
            have he : j - i = (j - (i + 1)) + 1 := by omega
            rw [he, List.drop_succ_cons]
          rw [hd]
          exact h2
        · intro k hk1 hk2
          have hd : cs.drop (k - (i + 1)) = (c :: cs).drop (k - i) := by
            have he : k - i = (k - (i + 1)) + 1 := by omega
            rw [he, List.drop_succ_cons]
          rw [hd]
          exact h3 k (by omega) hk2

theorem searchFirst_eq_some (phrases : List (List Char)) (t : List Char) (j : Nat) :
    searchFirst phrases t = some j ↔
      ((phrases.any fun p => ciPref p (t.drop j)) = true ∧
       ∀ k < j, (phrases.any fun p => ciPref p (t.drop k)) = false) := by
  unfold searchFirst
  rw [searchFirstAux_eq_some]
  constructor
  · intro ⟨_, h2, h3⟩
    refine ⟨by simpa using h2, fun k hk => by simpa using h3 k (Nat.zero_le _) hk⟩
  · intro ⟨h2, h3⟩
    exact ⟨Nat.zero_le _, by simpa using h2, fun k _ hk => by simpa using h3 k hk⟩

theorem searchFirstAux_eq_none (phrases : List (List Char)) :
    ∀ (s : List Char) (i : Nat),
      (∀ d, (phrases.any fun p => ciPref p (s.drop d)) = false) →
      searchFirstAux phrases s i = none := by
  intro s
  induction s with
  | nil =>
    intro i h
    unfold searchFirstAux
    rw [if_neg]
    simpa using h 0
  | cons c cs ih =>
    intro i h
    unfold searchFirstAux
    rw [if_neg (by simpa using h 0)]
    exact ih (i + 1) (fun d => by simpa [List.drop_succ_cons] using h (d + 1))

theorem occursCI_false {p : List Char} : ∀ {t : List Char}, occursCI p t = false →
    ∀ d, ciPref p (t.drop d) = false := by
  intro t
  induction t with
  | nil =>
    intro h d
    rw [List.drop_nil]
    simpa [occursCI] using h
  | cons c cs ih =>
    intro h d
    have h2 : ciPref p (c :: cs) = false ∧ occursCI p cs = false := by
      have : (ciPref p (c :: cs) || occursCI p cs) = false := h
      exact Bool.or_eq_false_iff.mp this
    cases d with
    | zero => simpa using h2.1
    | succ d =>
      rw [List.drop_succ_cons]
      exact ih h2.2 d

theorem ciPref_of_both {p q s : List Char} (hp : ciPref p s = true) (hq : ciPref q s = true)
    (hle : p.length ≤ q.length) : ciPref p q = true := by
  unfold ciPref at *
  rw [beq_iff_eq] at hp hq ⊢
  have hq2 := congrArg (List.take p.length) hq
  rw [← List.map_take, ← List.map_take, List.take_take, min_eq_left hle] at hq2
  rw [hq2, hp]

theorem sectionPatterns_cross :
    ∀ pr1 ∈ sectionPatterns, ∀ pr2 ∈ sectionPatterns, pr1.1 ≠ pr2.1 →
      ∀ p ∈ pr1.2, ∀ q ∈ pr2.2, (ciPref p q || ciPref q p) = false := by decide

theorem insertPair_perm (x : Nat × List Char) (l : List (Nat × List Char)) :
    (insertPair x l).Perm (x :: l) := by
  induction l with
  | nil => exact List.Perm.refl _
  | cons y ys ih =>
    unfold insertPair
    by_cases h : pairLe x y
    · rw [if_pos h]
    · rw [if_neg h]
      exact (List.Perm.cons y ih).trans (List.Perm.swap x y ys)

theorem sortPairs_perm (l : List (Nat × List Char)) : (sortPairs l).Perm l := by
  induction l with
  | nil => exact List.Perm.refl _
  | cons x xs ih => exact (insertPair_perm x (sortPairs xs)).trans (List.Perm.cons x ih)

theorem pairLe_fst {x y : Nat × List Char} (h : pairLe x y = true) : x.1 ≤ y.1 := by
  simp only [pairLe, Bool.or_eq_true, Bool.and_eq_true, decide_eq_true_eq,
    beq_iff_eq] at h
  rcases h with h1 | ⟨h1, _⟩ <;> omega

theorem pairLe_false_fst {x y : Nat × List Char} (h : pairLe x y = false) : y.1 ≤ x.1 := by
  simp only [pairLe, Bool.or_eq_false_iff, Bool.and_eq_false_iff,
    decide_eq_false_iff_not] at h
  omega

theorem insertPair_pairwise {x : Nat × List Char} {l : List (Nat × List Char)}
    (h : l.Pairwise (fun a b => a.1 ≤ b.1)) :
    (insertPair x l).Pairwise (fun a b => a.1 ≤ b.1) := by
  induction l with
  | nil => simp [insertPair]
  | cons y ys ih =>
    obtain ⟨hy, hys⟩ := List.pairwise_cons.mp h
    unfold insertPair
    by_cases hle : pairLe x y
    · rw [if_pos hle]
      apply List.pairwise_cons.mpr
      refine ⟨?_, h⟩
      intro b hb
      rcases List.mem_cons.mp hb with rfl | hb2
      · exact pairLe_fst hle
      · exact le_trans (pairLe_fst hle) (hy b hb2)
    · rw [if_neg hle]
      apply List.pairwise_cons.mpr
      refine ⟨?_, ih hys⟩
      intro b hb
      have hb2 := (insertPair_perm x ys).mem_iff.mp hb
      rcases List.mem_cons.mp hb2 with rfl | hb3
      · exact pairLe_false_fst (Bool.eq_false_iff.mpr hle)
      · exact hy b hb3

theorem sortPairs_pairwise (l : List (Nat × List Char)) :
    (sortPairs l).Pairwise (fun a b => a.1 ≤ b.1) := by
  induction l with
  | nil => simp [sortPairs]
  | cons x xs ih => exact insertPair_pairwise ih

theorem mem_rawPositions {t : List Char} {i : Nat} {name : List Char} :
    (i, name) ∈ rawPositions t ↔
      ∃ pr ∈ sectionPatterns, pr.1 = name ∧ searchFirst pr.2 t = some i := by
  unfold rawPositions
  rw [List.mem_filterMap]
  constructor
  · intro ⟨pr, hpr, hf⟩
    cases hs : searchFirst pr.2 t with
    | none =>
      rw [hs] at hf
      simp at hf
    | some j =>
      rw [hs] at hf
      simp only [Option.map_some', Option.some.injEq, Prod.mk.injEq] at hf
      exact ⟨pr, hpr, hf.2, by rw [hs, hf.1]⟩
  · intro ⟨pr, hpr, hname, hs⟩
    exact ⟨pr, hpr, by rw [hs]; simp [hname]⟩

theorem rawPositions_fst_nodup (t : List Char) : ((rawPositions t).map Prod.fst).Nodup := by
  rw [List.Nodup, List.pairwise_map]
  unfold rawPositions
  rw [List.pairwise_filterMap]
  have hnames : sectionPatterns.Pairwise (fun a b => a.1 ≠ b.1) := by decide
  refine hnames.imp_of_mem ?_
  intro pr1 pr2 h1 h2 hne b hb b2 hb2
  cases hs1 : searchFirst pr1.2 t with
  | none =>
    rw [hs1] at hb
    simp at hb
  | some i =>
    rw [hs1] at hb
    simp only [Option.map_some', Option.mem_def, Option.some.injEq] at hb
    cases hs2 : searchFirst pr2.2 t with
    | none =>
      rw [hs2] at hb2
      simp at hb2
    | some j =>
      rw [hs2] at hb2
      simp only [Option.map_some', Option.mem_def, Option.some.injEq] at hb2
      subst hb
      subst hb2
      show ¬i = j
      intro hij
      subst hij
      obtain ⟨ha1, _⟩ := (searchFirst_eq_some _ _ _).mp hs1
      obtain ⟨ha2, _⟩ := (searchFirst_eq_some _ _ _).mp hs2
      obtain ⟨p, hp, hcp⟩ := List.any_eq_true.mp ha1
      obtain ⟨q, hq, hcq⟩ := List.any_eq_true.mp ha2
      have hcross := sectionPatterns_cross pr1 h1 pr2 h2 hne p hp q hq
      obtain ⟨hc1, hc2⟩ := Bool.or_eq_false_iff.mp hcross
      rcases Nat.le_total p.length q.length with hle | hle
      · rw [ciPref_of_both hcp hcq hle] at hc1
        exact absurd hc1 (by decide)
      · rw [ciPref_of_both hcq hcp hle] at hc2
        exact absurd hc2 (by decide)

/-- Claim C9: for every record text the header locator returns a sequence
of `(offset, field)` pairs in which no two pairs share an offset; the
locator is a total function, defined also on texts where any or all
headers are absent, and returns at most one pair per schema field. -/
theorem section_positions_c9 (t : List Char) :
    ((section_positions t).map Prod.fst).Nodup ∧
    (section_positions t).length ≤ sectionPatterns.length := by
  constructor
  · exact (rawPositions_fst_nodup t).perm ((sortPairs_perm (rawPositions t)).map Prod.fst).symm
  · rw [show section_positions t = sortPairs (rawPositions t) from rfl,
      (sortPairs_perm (rawPositions t)).length_eq]
    exact List.length_filterMap_le _ _

/-- Claim C1, counterexample: in the record text
`"Sammanfattning x Sammanfattning"` the summary header occurs twice, the
last occurrence at offset 17, but the locator records offset 0 — the
position is NOT the last occurrence of the header phrase. -/
theorem header_locator_c1_counterexample :
    section_positions "Sammanfattning x Sammanfattning".data
      = [(0, sammKey)] ∧
    searchLast sammPhrases "Sammanfattning x Sammanfattning".data = some 17 ∧
    (0 : Nat) ≠ 17 :=
  ⟨by decide, by decide, by decide⟩

/-- Claim C1, amended: the header locator records, for each non-cost field
whose pattern occurs, the FIRST (least) offset at which one of its
bilingual header phrases matches case-insensitively (`re.search`
semantics); fields with no occurrence contribute no pair, and the
collected pairs are sorted by ascending offset. -/
theorem header_locator_c1_amended (t : List Char) :
    (∀ (i : Nat) (name : List Char),
       ((i, name) ∈ section_positions t ↔
         ∃ pr ∈ sectionPatterns, pr.1 = name ∧
           (pr.2.any fun p => ciPref p (t.drop i)) = true ∧
           ∀ j < i, (pr.2.any fun p => ciPref p (t.drop j)) = false)) ∧
    (section_positions t).Pairwise (fun a b => a.1 ≤ b.1) := by
  constructor
  · intro i name
    rw [show section_positions t = sortPairs (rawPositions t) from rfl,
      (sortPairs_perm (rawPositions t)).mem_iff, mem_rawPositions]
    constructor
    · intro ⟨pr, hpr, hname, hs⟩
      obtain ⟨h2, h3⟩ := (searchFirst_eq_some _ _ _).mp hs
      exact ⟨pr, hpr, hname, h2, h3⟩
    · intro ⟨pr, hpr, hname, h2, h3⟩
      exact ⟨pr, hpr, hname, (searchFirst_eq_some _ _ _).mpr ⟨h2, h3⟩⟩
  · exact sortPairs_pairwise _

theorem findSome?_map_aux {α β γ : Type} (g : α → β) (f : β → Option γ) (l : List α) :
    (l.map g).findSome? f = l.findSome? fun a => f (g a) := by
  induction l with
  | nil => rfl
  | cons a as ih =>
    rw [List.map_cons, List.findSome?_cons, List.findSome?_cons, ih]

theorem budgetGo_eq (labels : List (List Char)) : ∀ t : List Char,
    budgetGo labels t =
      (List.range (t.length + 1)).findSome? fun i => budgetAttempt labels (t.drop i) := by
  intro t
  induction t with
  | nil =>
    show budgetAttempt labels [] = _
    have h1 : List.range (List.length ([] : List Char) + 1) = [0] := by decide
    rw [h1, List.findSome?_cons]
    simp only [List.drop_nil]
    cases budgetAttempt labels ([] : List Char) <;> rfl
  | cons c cs ih =>
    show (match budgetAttempt labels (c :: cs) with
          | some g => some g
          | none => budgetGo labels cs) = _
    rw [show (c :: cs).length + 1 = cs.length + 1 + 1 from rfl, List.range_succ_eq_map,
      List.findSome?_cons]
    simp only [List.drop_zero]
    cases hba : budgetAttempt labels (c :: cs) with
    | some g => rfl
    | none =>
      rw [findSome?_map_aux]
      exact ih

/-- Claim C6: each budget field of `extract_project_data` equals the
stripped captured group of its pattern's match at the FIRST (least) text
offset where an attempt succeeds (`re.search` semantics), and the empty
string when no offset matches; in particular the text
`"Totalt sökt bidrag: 1 500 000 SEK"` yields `"1 500 000 SEK"` for the
requested-contribution field. -/
theorem budget_fields_c6 :
    (∀ t : List Char,
       ((extract_project_data t).budgeterad =
         (match (List.range (t.length + 1)).findSome?
             (fun i => budgetAttempt budLabels (t.drop i)) with
          | some g => pyStrip g
          | none => [])) ∧
       ((extract_project_data t).sokt =
         (match (List.range (t.length + 1)).findSome?
             (fun i => budgetAttempt soktLabels (t.drop i)) with
          | some g => pyStrip g
          | none => []))) ∧
    (extract_project_data "Totalt sökt bidrag: 1 500 000 SEK".data).sokt
      = "1 500 000 SEK".data := by
  constructor
  · intro t
    constructor
    · show extractBudget budLabels t = _
      unfold extractBudget
      rw [budgetGo_eq]
    · show extractBudget soktLabels t = _
      unfold extractBudget
      rw [budgetGo_eq]
  · decide

theorem canonical_sub : ∀ pr ∈ sectionPatterns, ∀ p ∈ pr.2, p ∈ canonicalPhrases := by decide

theorem budLabels_sub : ∀ p ∈ budLabels, p ∈ canonicalPhrases := by decide

theorem soktLabels_sub : ∀ p ∈ soktLabels, p ∈ canonicalPhrases := by decide

theorem hasAnyHeader_all {t : List Char} (h : hasAnyHeader t = false) :
    ∀ p ∈ canonicalPhrases, occursCI p t = false := by
  intro p hp
  have h2 := List.any_eq_false.mp h p hp
  simpa using h2

theorem budgetAttempt_none {labels : List (List Char)} {s : List Char}
    (h : ∀ p ∈ labels, ciPref p s = false) : budgetAttempt labels s = none := by
  unfold budgetAttempt
  rw [List.findSome?_eq_none_iff]
  intro p hp
  simp [h p hp]

theorem budgetGo_none {labels : List (List Char)} : ∀ {t : List Char},
    (∀ p ∈ labels, occursCI p t = false) → budgetGo labels t = none := by
  intro t
  induction t with
  | nil =>
    intro h
    show budgetAttempt labels [] = none
    exact budgetAttempt_none fun p hp => by simpa [occursCI] using h p hp
  | cons c cs ih =>
    intro h
    have hsplit : ∀ p ∈ labels, ciPref p (c :: cs) = false ∧ occursCI p cs = false := by
      intro p hp
      have h2 : (ciPref p (c :: cs) || occursCI p cs) = false := h p hp
      exact Bool.or_eq_false_iff.mp h2
    have h0 : budgetAttempt labels (c :: cs) = none :=
      budgetAttempt_none fun p hp => (hsplit p hp).1
    show (match budgetAttempt labels (c :: cs) with
          | some g => some g
          | none => budgetGo labels cs) = none
    rw [h0]
    exact ih fun p hp => (hsplit p hp).2

theorem section_positions_empty {t : List Char} (h : hasAnyHeader t = false) :
    section_positions t = [] := by
  have hraw : rawPositions t = [] := by
    unfold rawPositions
    rw [List.filterMap_eq_nil_iff]
    intro pr hpr
    have hnone : searchFirst pr.2 t = none := by
      apply searchFirstAux_eq_none
      intro d
      rw [List.any_eq_false]
      intro p hp
      rw [occursCI_false (hasAnyHeader_all h p (canonical_sub pr hpr p hp)) d]
      simp
    rw [hnone]
    rfl
  rw [show section_positions t = sortPairs (rawPositions t) from rfl, hraw]
  rfl

/-- Claim C7: a record text containing no canonical header (no phrase of
any of the eight schema fields occurs case-insensitively) extracts to the
all-empty record, and such a page contributes nothing to the batch
output — it is excluded entirely. -/
theorem empty_record_c7 (t : List Char) (h : hasAnyHeader t = false) :
    extract_project_data t = emptyData ∧
    ∀ pages1 pages2 : List (List Char),
      batchRecords (pages1 ++ t :: pages2) = batchRecords (pages1 ++ pages2) := by
  have hb : extractBudget budLabels t = [] := by
    unfold extractBudget
    rw [budgetGo_none fun p hp => hasAnyHeader_all h p (budLabels_sub p hp)]
  have hsk : extractBudget soktLabels t = [] := by
    unfold extractBudget
    rw [budgetGo_none fun p hp => hasAnyHeader_all h p (soktLabels_sub p hp)]
  have hed : extract_project_data t = emptyData := by
    unfold extract_project_data
    rw [section_positions_empty h]
    simp only [List.enum_nil, List.foldl_nil]
    rw [hb, hsk]
    rfl
  refine ⟨hed, ?_⟩
  have hpage : pageRecord t = none := by
    unfold pageRecord
    by_cases hm : containsMarker t
    · rw [if_pos hm]
      simp only [hed]
      decide
    · rw [if_neg hm]
  intro pages1 pages2
  simp [batchRecords, List.filterMap_append, List.filterMap_cons, hpage]

/-- Witness for C7: a concrete text with no canonical header. -/
theorem empty_record_c7_witness :
    extract_project_data "hello world".data = emptyData ∧
    batchRecords (["a".data] ++ "hello world".data :: []) = batchRecords (["a".data] ++ []) :=
  ⟨(empty_record_c7 "hello world".data (by decide)).1,
   (empty_record_c7 "hello world".data (by decide)).2 ["a".data] []⟩
